import Mathlib

/-!
# Verification of the documentation-pipeline scripts

This file gives a shallow embedding in Lean 4 of the two Python scripts of
this repository:

* `.github/scripts/update_versions.py` — maintains a `versions.json`
  registry of documentation versions (function `update_versions_file`,
  helper `parse_version`);
* `.github/scripts/generate_sitemap.py` — walks a directory of built HTML
  pages and emits a `sitemap.xml` (function `generate_sitemap` and the
  `__main__` driver).

Python strings are modelled as Lean `String` (manipulated through their
`List Char` data so that all definitions are structurally recursive and
kernel-evaluable), Python integers as `Int`, Python tuples of ints as
`List Int` ordered by Python's lexicographic tuple order, and Python's
stable `list.sort` as `List.insertionSort` (any two stable sorts by the
same total preorder agree, so this is extensionally faithful to CPython's
stable sort, including `reverse=True`, which keeps equal-key elements in
their original order).

The filesystem traversal `os.walk(start_dir)` is modelled by its observed
output: a list of pairs `(relative directory path segments, file names)`,
which is exactly what the sitemap generator consumes.
-/

namespace DocsPipeline

/-! ## Modelling of the Python string primitives -/

/-- `s.lstrip(c)` for a one-character strip set: drop every leading
occurrence of `c`. (Python's `lstrip` strips *all* leading characters of
the set, not just one.) -/
def pyLstrip (s : String) (c : Char) : String :=
  ⟨s.data.dropWhile (· == c)⟩

/-- `s.rstrip(c)` for a one-character strip set: drop every trailing
occurrence of `c`. -/
def pyRstrip (s : String) (c : Char) : String :=
  ⟨(s.data.reverse.dropWhile (· == c)).reverse⟩

/-- `isPrefixL p s` : the character list `p` is a prefix of `s`. -/
def isPrefixL : List Char → List Char → Bool
  | [], _ => true
  | _ :: _, [] => false
  | a :: as, b :: bs => a == b && isPrefixL as bs

/-- `isSuffixL p s` : the character list `p` is a suffix of `s`
(`p` equals `s`, or is a suffix of its tail). -/
def isSuffixL (p : List Char) : List Char → Bool
  | [] => p == []
  | c :: t => p == c :: t || isSuffixL p t

/-- `containsL p s` : the character list `p` occurs contiguously in `s`. -/
def containsL (p : List Char) : List Char → Bool
  | [] => isPrefixL p []
  | c :: t => isPrefixL p (c :: t) || containsL p t

/-- Python `s.endswith(t)`. -/
def strEndsWith (s t : String) : Bool := isSuffixL t.data s.data

/-- Python `t in s` (substring membership). -/
def strContains (s t : String) : Bool := containsL t.data s.data

/-- Python `s.split(sep)` for a one-character separator, on character
lists: `"".split('.') == ['']`, `".".split('.') == ['', '']`, etc. -/
def splitOnCharL (c : Char) : List Char → List (List Char)
  | [] => [[]]
  | x :: xs =>
    if x == c then [] :: splitOnCharL c xs
    else
      match splitOnCharL c xs with
      | r :: rs => (x :: r) :: rs
      | [] => [[x]]

/-- Python `s.split('.')`. -/
def pySplitDot (s : String) : List String :=
  (splitOnCharL '.' s.data).map (fun l => ⟨l⟩)

/-- Parse a nonempty ASCII-digit run, allowing `_` strictly between
digits (Python's numeric-literal underscore rule for `int`),
accumulating into `acc`. -/
def pyDigits (acc : Nat) : List Char → Option Nat
  | [] => some acc
  | '_' :: c :: cs =>
    if c.isDigit then pyDigits (acc * 10 + (c.toNat - '0'.toNat)) cs else none
  | '_' :: [] => none
  | c :: cs =>
    if c.isDigit then pyDigits (acc * 10 + (c.toNat - '0'.toNat)) cs else none

/-- Python `int(s)`: strip surrounding whitespace, optional sign, then a
nonempty digit run (ASCII digits; Python additionally accepts Unicode
digits, which never occur in this pipeline). `none` models the
`ValueError` raised on anything else. -/
def pyInt? (s : String) : Option Int :=
  let t := ((s.data.dropWhile Char.isWhitespace).reverse.dropWhile
      Char.isWhitespace).reverse
  match t with
  | '+' :: c :: cs =>
    if c.isDigit then (pyDigits (c.toNat - '0'.toNat) cs).map Int.ofNat else none
  | '-' :: c :: cs =>
    if c.isDigit then (pyDigits (c.toNat - '0'.toNat) cs).map (fun n => -(n : Int))
    else none
  | c :: cs =>
    if c.isDigit then (pyDigits (c.toNat - '0'.toNat) cs).map Int.ofNat else none
  | [] => none

/-- Python's lexicographic order on sequences, parameterised by a strict
order on the elements: compare heads first; on a tie recurse; a strict
prefix is smaller. -/
def lexLt (lt : α → α → Bool) : List α → List α → Bool
  | [], [] => false
  | [], _ :: _ => true
  | _ :: _, [] => false
  | a :: as, b :: bs =>
    if lt a b then true else if lt b a then false else lexLt lt as bs

/-- Python `<` on tuples of ints (version keys). -/
def pyTupLt (x y : List Int) : Bool := lexLt (fun a b : Int => decide (a < b)) x y

/-- Python `<=` on tuples of ints. -/
def pyTupLe (x y : List Int) : Bool := !(pyTupLt y x)

/-- `"/".join parts`. -/
def joinSlash : List String → String
  | [] => ""
  | [x] => x
  | x :: y :: xs => x ++ "/" ++ joinSlash (y :: xs)

/-- Length of the trailing run of `'/'` characters of a string. -/
def trailingSlashes (s : String) : Nat :=
  (s.data.reverse.takeWhile (· == '/')).length

/-! ## `update_versions.py` -/

/-- The `latest` object of `versions.json`. -/
structure LatestInfo where
  path : String
  label : String
  version : String
  updated : Option String
deriving DecidableEq

/-- One release record of the `versions` list. -/
structure VEntry where
  version : String
  path : String
  label : String
  releaseDate : String
deriving DecidableEq

/-- The whole `versions.json` document. -/
structure VersionsDoc where
  latest : LatestInfo
  stable : Option String
  versions : List VEntry
deriving DecidableEq

/-- The default structure created by `load_versions` when no
`versions.json` exists. -/
def defaultVersions : VersionsDoc :=
  { latest := { path := "/latest/", label := "Latest (Snapshot)",
                version := "main", updated := none }
    stable := none
    versions := [] }

/-- `tuple(int(p) for p in parts)`: parse each component in order,
aborting on the first `ValueError`. -/
def parseComps : List String → Option (List Int)
  | [] => some []
  | p :: ps =>
    match pyInt? p, parseComps ps with
    | some n, some ns => some (n :: ns)
    | _, _ => none

/-- `parse_version` from `update_versions.py`:
strip leading `'v'`s, split on `'.'`, take up to the first three
components, convert each to `int`; on failure fall back to `(0, 0, 0)`.
The Python tuple is modelled as a `List Int` (its length is the number
of components taken, which can be less than 3). -/
def parse_version (version_string : String) : List Int :=
  let parts := pySplitDot (pyLstrip version_string 'v')
  match parseComps (parts.take 3) with
  | some ns => ns
  | none => [0, 0, 0]

/-- The preorder by which `data["versions"].sort(key=..., reverse=True)`
arranges entries: `a` may precede `b` iff `a`'s parsed key is
`>=` (in Python tuple order) `b`'s. -/
def verLe (a b : VEntry) : Prop :=
  pyTupLe (parse_version b.version) (parse_version a.version) = true

instance : DecidableRel verLe := fun a b =>
  inferInstanceAs (Decidable (_ = true))

/-- The in-memory mutation performed by `update_versions_file` between
loading and re-serialising the document. `now` stands for the
`current_time` timestamp string. -/
def update_versions_file (data : VersionsDoc) (version version_label now : String) :
    VersionsDoc :=
  if version = "latest" then
    { data with latest := { data.latest with updated := some now, label := version_label } }
  else
    let version_entry : VEntry :=
      { version := version, path := "/" ++ version ++ "/",
        label := version_label, releaseDate := now }
    let vs := data.versions.filter (fun v => v.version != version)
    let vs := vs ++ [version_entry]
    let vs := List.insertionSort verLe vs
    { data with
      versions := vs
      stable := match vs with
        | [] => data.stable
        | e :: _ => some e.version }

/-- The §3 invariant: `stable` is the version of the first release record,
or null when there are none. -/
def stableInv (d : VersionsDoc) : Prop :=
  d.stable = d.versions.head?.map (·.version)

instance : DecidablePred stableInv := fun d =>
  inferInstanceAs (Decidable (_ = _))

/-- The §3 invariant: at most one record per distinct `version` string. -/
def uniqueVersions (l : List VEntry) : Prop :=
  (l.map (·.version)).Nodup

instance (l : List VEntry) : Decidable (uniqueVersions l) :=
  inferInstanceAs (Decidable (List.Nodup _))

/-! ## `generate_sitemap.py` -/

/-- The output of `os.walk(start_dir)`, as consumed by the generator: for
each visited directory, its path relative to `start_dir` (as a list of
segments, `[]` for `start_dir` itself) together with the names of the
regular files it holds. -/
abbrev Walk : Type := List (List String × List String)

/-- The base-URL normalisation at the top of `generate_sitemap`:
`if not base_url.endswith('/'): base_url += '/'`. -/
def normBase (base_url : String) : String :=
  if strEndsWith base_url "/" then base_url else base_url ++ "/"

/-- `excluded_files = ["404.html", "print.html"]`. -/
def excluded_files : List String := ["404.html", "print.html"]

/-- The per-file filter of the walk loop:
`file.endswith(".html") and file not in excluded_files`. -/
def keepFile (file : String) : Bool :=
  strEndsWith file ".html" && !(excluded_files.contains file)

/-- The URL built for a kept file: the (already normalised) base followed
by the root-relative path with `/` separators. In the source this is
`base_url + "/".join(relative_path.replace(os.path.sep, '/').split('/'))`;
splitting on `'/'` and re-joining with `'/'` is the identity, so the URL
is the base plus the relative path. -/
def fileUrl (base : String) (dirSegs : List String) (file : String) : String :=
  base ++ joinSlash (dirSegs ++ [file])

/-- The `urls` list accumulated by the `os.walk` loop (in walk order,
before sorting). -/
def collectUrls (base : String) (walk : Walk) : List String :=
  walk.flatMap fun rf =>
    rf.2.filterMap fun file =>
      if keepFile file then some (fileUrl base rf.1 file) else none

/-- Every `(directory path, file name)` pair of the walked tree, in walk
order and with no filtering. -/
def walkEntries (walk : Walk) : List (List String × String) :=
  walk.flatMap fun rf => rf.2.map fun file => (rf.1, file)

/-- Python `sorted` on strings: ascending lexicographic comparison of the
character sequences by code point. `a` may precede `b` iff `not (b < a)`. -/
def urlLe (a b : String) : Prop :=
  (!lexLt (fun c d : Char => decide (c < d)) b.data a.data) = true

instance : DecidableRel urlLe := fun a b =>
  inferInstanceAs (Decidable (_ = true))

/-- The five "key selling point" path fragments of the 0.9 tier. -/
def tier09fragments : List String :=
  ["effect/ch_intro.html", "effect/effect_path_overview.html",
   "optics/optics_intro.html", "optics/focus_dsl.html",
   "effect/focus_integration.html"]

/-- The five "core documentation" path fragments of the 0.8 tier. -/
def tier08fragments : List String :=
  ["core-concepts.html", "usage-guide.html", "hkt_introduction.html",
   "tutorials_intro.html", "spring_boot_integration.html"]

/-- Condition of the priority-1.0 branch (`base_url` here is the
normalised base, as reassigned at the top of `generate_sitemap`). -/
def rule10 (base_url url : String) : Bool :=
  strEndsWith url "index.html" || strEndsWith url "home.html" ||
    url == pyRstrip base_url '/'

/-- Condition of the priority-0.9 branch. -/
def rule09 (url : String) : Bool :=
  tier09fragments.any fun p => strContains url p

/-- Condition of the priority-0.8 branch. -/
def rule08 (url : String) : Bool :=
  tier08fragments.any fun p => strContains url p

/-- Condition of the priority-0.7 branch. -/
def rule07 (url : String) : Bool :=
  strContains url "/effect/" || strContains url "/optics/"

/-- Condition of the priority-0.6 branch. -/
def rule06 (url : String) : Bool :=
  strContains url "/tutorials/" || strContains url "/hkts/"

/-- The `if/elif` priority cascade of the serialisation loop, returning
the text written into `<priority>`. -/
def pagePriority (base_url url : String) : String :=
  if rule10 base_url url then "1.0"
  else if rule09 url then "0.9"
  else if rule08 url then "0.8"
  else if rule07 url then "0.7"
  else if rule06 url then "0.6"
  else "0.5"

/-- The sequence of `<url>` entries of the generated sitemap, each as the
pair (url written into `<loc>`, priority text): the collected URLs are
sorted ascending and each is classified by the cascade. (The `lastmod`
date and `changefreq` are the same constants for every entry and carry no
per-entry information.) -/
def sitemapEntries (walk : Walk) (base_url : String) : List (String × String) :=
  let base := normBase base_url
  (List.insertionSort urlLe (collectUrls base walk)).map fun u =>
    (u, pagePriority base u)

/-- Outcome of running the `__main__` block: the process exit code,
whether the missing-directory diagnostics were printed, and the sitemap
entries written (none when no file is written). -/
structure MainOutcome where
  exitCode : Nat
  errorReported : Bool
  written : Option (List (String × String))
deriving DecidableEq

/-- The `__main__` driver: if the output directory does not exist (or is
not a directory), print the diagnostics and `exit(1)` without writing;
otherwise generate the sitemap and terminate normally (exit code 0).
`dirOk` models `os.path.isdir(book_output_directory)` and `walk` the
directory's contents. -/
def sitemapMain (dirOk : Bool) (walk : Walk) (base_url : String) : MainOutcome :=
  if dirOk then
    { exitCode := 0, errorReported := false,
      written := some (sitemapEntries walk base_url) }
  else
    { exitCode := 1, errorReported := true, written := none }

/-! ## Properties of the lexicographic order on tuples -/

theorem lexLt_asymm (lt : α → α → Bool) (h : ∀ a b, lt a b = true → lt b a = false) :
    ∀ x y, lexLt lt x y = true → lexLt lt y x = false := by
  intro x
  induction x with
  | nil =>
    intro y hxy
    cases y with
    | nil => simp [lexLt] at hxy
    | cons b bs => simp [lexLt]
  | cons a as ih =>
    intro y hxy
    cases y with
    | nil => simp [lexLt] at hxy
    | cons b bs =>
      simp only [lexLt] at hxy ⊢
      by_cases hab : lt a b = true
      · rw [h a b hab, hab]
        simp
      · rw [Bool.not_eq_true] at hab
        rw [hab] at hxy ⊢
        by_cases hba : lt b a = true
        · rw [hba] at hxy
          simp at hxy
        · rw [Bool.not_eq_true] at hba
          rw [hba] at hxy ⊢
          simpa using ih bs hxy

theorem lexLt_connex (lt : α → α → Bool)
    (hconn : ∀ a b, lt a b = false → lt b a = false → a = b) :
    ∀ x y, lexLt lt x y = false → lexLt lt y x = false → x = y := by
  intro x
  induction x with
  | nil =>
    intro y hxy _
    cases y with
    | nil => rfl
    | cons b bs => simp [lexLt] at hxy
  | cons a as ih =>
    intro y hxy hyx
    cases y with
    | nil => simp [lexLt] at hyx
    | cons b bs =>
      simp only [lexLt] at hxy hyx
      by_cases hab : lt a b = true
      · rw [hab] at hxy; simp at hxy
      · rw [Bool.not_eq_true] at hab
        by_cases hba : lt b a = true
        · rw [hba] at hyx; simp at hyx
        · rw [Bool.not_eq_true] at hba
          rw [hab, hba] at hxy hyx
          simp only [if_neg, Bool.false_eq_true, if_false] at hxy hyx
          rw [hconn a b hab hba, ih bs hxy hyx]

theorem lexLt_trans (lt : α → α → Bool)
    (hconn : ∀ a b, lt a b = false → lt b a = false → a = b)
    (htr : ∀ a b c, lt a b = true → lt b c = true → lt a c = true) :
    ∀ x y z, lexLt lt x y = true → lexLt lt y z = true → lexLt lt x z = true := by
  intro x
  induction x with
  | nil =>
    intro y z hxy hyz
    cases y with
    | nil => simp [lexLt] at hxy
    | cons b bs =>
      cases z with
      | nil => simp [lexLt] at hyz
      | cons c cs => simp [lexLt]
  | cons a as ih =>
    intro y z hxy hyz
    cases y with
    | nil => simp [lexLt] at hxy
    | cons b bs =>
      cases z with
      | nil => simp [lexLt] at hyz
      | cons c cs =>
        simp only [lexLt] at hxy hyz ⊢
        by_cases hab : lt a b = true
        · -- a < b
          by_cases hbc : lt b c = true
          · rw [htr a b c hab hbc]; simp
          · rw [Bool.not_eq_true] at hbc
            rw [hbc] at hyz
            by_cases hcb : lt c b = true
            · rw [hcb] at hyz; simp at hyz
            · rw [Bool.not_eq_true] at hcb
              -- b and c tie, hence are equal
              have hcb' := hconn c b hcb hbc
              subst hcb'
              rw [hab]
              simp
        · rw [Bool.not_eq_true] at hab
          rw [hab] at hxy
          by_cases hba : lt b a = true
          · rw [hba] at hxy; simp at hxy
          · rw [Bool.not_eq_true] at hba
            -- a and b tie, hence are equal
            have hab' := hconn a b hab hba
            subst hab'
            rw [hab] at hxy
            simp only [Bool.false_eq_true, if_false] at hxy
            by_cases hac : lt a c = true
            · rw [hac]; simp
            · rw [Bool.not_eq_true] at hac
              rw [hac] at hyz ⊢
              by_cases hca : lt c a = true
              · rw [hca] at hyz; simp at hyz
              · rw [Bool.not_eq_true] at hca
                rw [hca] at hyz ⊢
                simp only [Bool.false_eq_true, if_false] at hxy hyz ⊢
                exact ih bs cs hxy hyz

theorem intLtB_conn (a b : Int) :
    decide (a < b) = false → decide (b < a) = false → a = b := by
  intro h1 h2
  simp at h1 h2
  omega

theorem intLtB_trans (a b c : Int) :
    decide (a < b) = true → decide (b < c) = true → decide (a < c) = true := by
  intro h1 h2
  simp at h1 h2 ⊢
  omega

theorem intLtB_asymm (a b : Int) :
    decide (a < b) = true → decide (b < a) = false := by
  intro h
  simp at h ⊢
  omega

theorem pyTupLt_asymm {x y : List Int} (h : pyTupLt x y = true) : pyTupLt y x = false :=
  lexLt_asymm _ intLtB_asymm x y h

theorem pyTupLt_trans {x y z : List Int} (h1 : pyTupLt x y = true)
    (h2 : pyTupLt y z = true) : pyTupLt x z = true :=
  lexLt_trans _ intLtB_conn intLtB_trans x y z h1 h2

theorem pyTupLt_connex {x y : List Int} (h1 : pyTupLt x y = false)
    (h2 : pyTupLt y x = false) : x = y :=
  lexLt_connex _ intLtB_conn x y h1 h2

theorem pyTupLe_total (x y : List Int) :
    pyTupLe x y = true ∨ pyTupLe y x = true := by
  unfold pyTupLe
  by_cases h : pyTupLt y x = true
  · right
    rw [pyTupLt_asymm h]
    rfl
  · left
    rw [Bool.not_eq_true] at h
    rw [h]
    rfl

theorem pyTupLe_trans {x y z : List Int} (h1 : pyTupLe x y = true)
    (h2 : pyTupLe y z = true) : pyTupLe x z = true := by
  unfold pyTupLe at h1 h2 ⊢
  simp only [Bool.not_eq_true'] at h1 h2 ⊢
  by_cases hzx : pyTupLt z x = true
  · by_cases hyz : pyTupLt y z = true
    · exact absurd (pyTupLt_trans hyz hzx) (by simp [h1])
    · rw [Bool.not_eq_true] at hyz
      rw [pyTupLt_connex hyz h2] at h1
      exact absurd hzx (by simp [h1])
  · exact Bool.not_eq_true _ ▸ hzx

instance : IsTotal VEntry verLe :=
  ⟨fun a b => pyTupLe_total (parse_version b.version) (parse_version a.version)⟩

instance : IsTrans VEntry verLe :=
  ⟨fun _ _ _ hab hbc => pyTupLe_trans hbc hab⟩

/-! ## Characterisations of the string primitives -/

theorem isPrefixL_iff (p : List Char) :
    ∀ s : List Char, isPrefixL p s = true ↔ ∃ t, s = p ++ t := by
  induction p with
  | nil =>
    intro s
    simp [isPrefixL]
  | cons a as ih =>
    intro s
    cases s with
    | nil => simp [isPrefixL]
    | cons b bs =>
      simp only [isPrefixL, Bool.and_eq_true, beq_iff_eq, ih bs]
      constructor
      · rintro ⟨rfl, t, rfl⟩
        exact ⟨t, rfl⟩
      · rintro ⟨t, ht⟩
        injection ht with h1 h2
        exact ⟨h1.symm, t, h2⟩

theorem isSuffixL_iff (p : List Char) :
    ∀ s : List Char, isSuffixL p s = true ↔ ∃ t, s = t ++ p := by
  intro s
  induction s with
  | nil =>
    simp only [isSuffixL, beq_iff_eq]
    constructor
    · rintro rfl
      exact ⟨[], rfl⟩
    · rintro ⟨t, ht⟩
      rcases List.append_eq_nil.mp ht.symm with ⟨_, h2⟩
      exact h2
  | cons c t ih =>
    simp only [isSuffixL, Bool.or_eq_true, beq_iff_eq, ih]
    constructor
    · rintro (rfl | ⟨u, rfl⟩)
      · exact ⟨[], rfl⟩
      · exact ⟨c :: u, rfl⟩
    · rintro ⟨u, hu⟩
      cases u with
      | nil =>
        simp only [List.nil_append] at hu
        exact Or.inl hu.symm
      | cons d us =>
        injection hu with h1 h2
        exact Or.inr ⟨us, h2⟩

theorem containsL_iff (p : List Char) :
    ∀ s : List Char, containsL p s = true ↔ ∃ u v, s = u ++ p ++ v := by
  intro s
  induction s with
  | nil =>
    simp only [containsL, isPrefixL_iff]
    constructor
    · rintro ⟨t, ht⟩
      exact ⟨[], t, ht⟩
    · rintro ⟨u, v, huv⟩
      rcases List.append_eq_nil.mp huv.symm with ⟨h1, h2⟩
      rcases List.append_eq_nil.mp h1 with ⟨_, h3⟩
      exact ⟨[], by simp [h3]⟩
  | cons c t ih =>
    simp only [containsL, Bool.or_eq_true, isPrefixL_iff, ih]
    constructor
    · rintro (⟨v, hv⟩ | ⟨u, v, huv⟩)
      · exact ⟨[], v, by simp [hv]⟩
      · exact ⟨c :: u, v, by simp [huv]⟩
    · rintro ⟨u, v, huv⟩
      cases u with
      | nil => exact Or.inl ⟨v, by simpa using huv⟩
      | cons d us =>
        injection huv with h1 h2
        exact Or.inr ⟨us, v, h2⟩

theorem strEndsWith_iff (s t : String) :
    strEndsWith s t = true ↔ ∃ pre, s.data = pre ++ t.data := by
  exact isSuffixL_iff t.data s.data

theorem strContains_iff (s t : String) :
    strContains s t = true ↔ ∃ u v, s.data = u ++ t.data ++ v := by
  exact containsL_iff t.data s.data

theorem strEndsWith_imp_contains {s t : String} (h : strEndsWith s t = true) :
    strContains s t = true := by
  rcases (strEndsWith_iff s t).mp h with ⟨pre, hpre⟩
  exact (strContains_iff s t).mpr ⟨pre, [], by simp [hpre]⟩

theorem length_dropWhileL_le (p : α → Bool) (l : List α) :
    (l.dropWhile p).length ≤ l.length := by
  induction l with
  | nil => simp
  | cons a l ih =>
    cases hpa : p a
    · simp [List.dropWhile, hpa]
    · simp only [List.dropWhile, hpa, List.length_cons]
      omega

theorem pyRstrip_length_le (s : String) (c : Char) :
    (pyRstrip s c).data.length ≤ s.data.length := by
  unfold pyRstrip
  simpa using length_dropWhileL_le (· == c) s.data.reverse

theorem joinSlash_last (f : String) :
    ∀ p : List String, ∃ t, (joinSlash (p ++ [f])).data = t ++ f.data := by
  intro p
  induction p with
  | nil => exact ⟨[], rfl⟩
  | cons a p ih =>
    rcases ih with ⟨t, ht⟩
    cases hp : p ++ [f] with
    | nil => exact absurd hp (by simp)
    | cons y ys =>
      refine ⟨a.data ++ "/".data ++ t, ?_⟩
      show (joinSlash (a :: (p ++ [f]))).data = _
      rw [hp, joinSlash, String.data_append, String.data_append, ← hp, ht]
      simp

/-! ## Helper lemmas about sorting and counting -/

/-- In a `Pairwise r` list, an element that is `r`-below only itself is
the last element. -/
theorem pairwise_getLast {r : α → α → Prop} :
    ∀ (l : List α) (u : α), l.Pairwise r → u ∈ l →
      (∀ x ∈ l, r u x → x = u) → l.getLast? = some u := by
  intro l
  induction l with
  | nil => intro u _ hu; simp at hu
  | cons a l ih =>
    intro u hp hu hmin
    cases l with
    | nil =>
      simp at hu
      simp [hu]
    | cons b l' =>
      rw [List.getLast?_cons_cons]
      rcases List.mem_cons.mp hu with rfl | hu'
      · -- u is the head; everything after it is forced to equal u
        have hall : ∀ x ∈ b :: l', r u x := (List.pairwise_cons.mp hp).1
        have hb : b = u := hmin b (by simp) (hall b (by simp))
        refine ih u (List.pairwise_cons.mp hp).2 ?_ ?_
        · rw [hb]; simp
        · intro x hx hrx
          exact hmin x (List.mem_cons_of_mem _ hx) hrx
      · refine ih u (List.pairwise_cons.mp hp).2 hu' ?_
        intro x hx hrx
        exact hmin x (List.mem_cons_of_mem _ hx) hrx

/-- Per-directory step of the sitemap count correspondence: the URLs kept
from one directory's file list, counted, match the kept `(dir, file)`
entries mapping to the same URL. -/
theorem count_filterMap_files (base : String) (p : List String) (url : String) :
    ∀ files : List String,
      ((files.filterMap fun file =>
          if keepFile file then some (fileUrl base p file) else none).count url)
        = ((files.map fun file => (p, file)).filter
            (fun e => keepFile e.2 && (fileUrl base e.1 e.2 == url))).length := by
  intro files
  induction files with
  | nil => rfl
  | cons f fs ih =>
    rw [List.filterMap_cons, List.map_cons, List.filter_cons]
    cases hk : keepFile f
    · simpa [hk] using ih
    · simp only [hk, Bool.true_and]
      cases hb : (fileUrl base p f == url)
      · simpa [List.count_cons, hb] using ih
      · simp [List.count_cons, hb, ih]

/-- The sitemap count correspondence over the whole walk. -/
theorem count_collectUrls (base url : String) :
    ∀ walk : Walk, (collectUrls base walk).count url
      = ((walkEntries walk).filter
          (fun e => keepFile e.2 && (fileUrl base e.1 e.2 == url))).length := by
  intro walk
  induction walk with
  | nil => rfl
  | cons rf rest ih =>
    have h1 : collectUrls base (rf :: rest)
        = (rf.2.filterMap fun file =>
            if keepFile file then some (fileUrl base rf.1 file) else none)
          ++ collectUrls base rest := by
      simp [collectUrls]
    have h2 : walkEntries (rf :: rest)
        = (rf.2.map fun file => (rf.1, file)) ++ walkEntries rest := by
      simp [walkEntries]
    rw [h1, h2, List.count_append, List.filter_append, List.length_append,
      count_filterMap_files base rf.1 url rf.2, ih]

/-- The `<loc>` URLs of the generated sitemap are exactly the collected
URLs, sorted. -/
theorem sitemapEntries_map_fst (walk : Walk) (base : String) :
    (sitemapEntries walk base).map Prod.fst
      = List.insertionSort urlLe (collectUrls (normBase base) walk) := by
  simp [sitemapEntries, Function.comp_def]

/-- Count of a URL among the generated sitemap entries. -/
theorem count_sitemapEntries (walk : Walk) (base url : String) :
    ((sitemapEntries walk base).map Prod.fst).count url
      = ((walkEntries walk).filter
          (fun e => keepFile e.2 && (fileUrl (normBase base) e.1 e.2 == url))).length := by
  rw [sitemapEntries_map_fst,
    (List.perm_insertionSort urlLe (collectUrls (normBase base) walk)).count_eq,
    count_collectUrls]

/-- Release-mode unfolding of `update_versions_file`. -/
theorem update_release (d : VersionsDoc) {v : String} (l now : String)
    (hv : v ≠ "latest") :
    update_versions_file d v l now =
      { d with
        versions := List.insertionSort verLe
          ((d.versions.filter fun x => x.version != v) ++
            [⟨v, "/" ++ v ++ "/", l, now⟩])
        stable := match List.insertionSort verLe
            ((d.versions.filter fun x => x.version != v) ++
              [⟨v, "/" ++ v ++ "/", l, now⟩]) with
          | [] => d.stable
          | e :: _ => some e.version } := by
  rw [update_versions_file, if_neg hv]

/-- The sorted release list is never empty (the new entry is in it). -/
theorem sorted_release_ne_nil (L : List VEntry) (e : VEntry) :
    List.insertionSort verLe (L ++ [e]) ≠ [] := by
  intro h
  have := List.length_insertionSort verLe (L ++ [e])
  rw [h] at this
  simp at this

/-! ## Claims about `update_versions.py` -/

/-- Claim C1: the `stable` field of the registry equals the `version` of
the first element of `versions` (or is null when `versions` is empty) as
an invariant of the document: it holds of the freshly initialised default
document, it is preserved by every mutation (both modes), and after every
release-mode update it holds unconditionally, with `stable` set to
`versions[0].version`. -/
theorem claim1_stable_invariant (d : VersionsDoc) (v l now : String) :
    (stableInv d → stableInv (update_versions_file d v l now))
    ∧ stableInv defaultVersions
    ∧ (v ≠ "latest" →
        ∃ e rest, (update_versions_file d v l now).versions = e :: rest
          ∧ (update_versions_file d v l now).stable = some e.version) := by
  have hrel : v ≠ "latest" →
      ∃ e rest, (update_versions_file d v l now).versions = e :: rest
        ∧ (update_versions_file d v l now).stable = some e.version := by
    intro hv
    rw [update_release d l now hv]
    rcases hL : List.insertionSort verLe
        ((d.versions.filter fun x => x.version != v) ++
          [⟨v, "/" ++ v ++ "/", l, now⟩]) with _ | ⟨e, rest⟩
    · exact absurd hL (sorted_release_ne_nil _ _)
    · exact ⟨e, rest, by simp [hL], by simp [hL]⟩
  refine ⟨?_, by simp [stableInv, defaultVersions], hrel⟩
  intro hinv
  by_cases hv : v = "latest"
  · simpa [stableInv, update_versions_file, hv] using hinv
  · rcases hrel hv with ⟨e, rest, hvs, hst⟩
    simp [stableInv, hvs, hst]

/-- Witness for C1 at a concrete document and release update. -/
theorem claim1_witness :
    stableInv (update_versions_file defaultVersions "v0.1.9" "0.1.9" "T")
    ∧ (update_versions_file defaultVersions "v0.1.9" "0.1.9" "T").stable
        = some "v0.1.9" := by
  constructor
  · exact (claim1_stable_invariant defaultVersions "v0.1.9" "0.1.9" "T").1
      (by decide)
  · rcases (claim1_stable_invariant defaultVersions "v0.1.9" "0.1.9" "T").2.2
        (by decide) with ⟨e, rest, hvs, hst⟩
    have he : e :: rest = [⟨"v0.1.9", "/v0.1.9/", "0.1.9", "T"⟩] := by
      rw [← hvs]
      decide
    rw [hst]
    injection he with h1 _
    rw [h1]

/-- Claim C2: `versions` holds at most one record per distinct `version`
string, as an invariant preserved by every update; and a release-mode
update with version `v` and a (possibly different) label leaves exactly
one record with version `v` — the freshly built one, carrying the new
label (replacement, not duplication). -/
theorem claim2_unique_versions (d : VersionsDoc) (v l now : String) :
    (uniqueVersions d.versions →
      uniqueVersions (update_versions_file d v l now).versions)
    ∧ (v ≠ "latest" →
        (update_versions_file d v l now).versions.filter
            (fun e => e.version == v)
          = [⟨v, "/" ++ v ++ "/", l, now⟩]) := by
  constructor
  · intro hinv
    by_cases hv : v = "latest"
    · simpa [uniqueVersions, update_versions_file, hv] using hinv
    · rw [update_release d l now hv]
      show uniqueVersions (List.insertionSort verLe _)
      unfold uniqueVersions
      rw [((List.perm_insertionSort verLe _).map (·.version)).nodup_iff,
        List.map_append]
      rw [List.nodup_append]
      refine ⟨?_, ?_, ?_⟩
      · exact hinv.sublist ((List.filter_sublist d.versions).map (·.version))
      · simp
      · intro x hx
        rcases List.mem_map.mp hx with ⟨r, hr, hrx⟩
        have hne : r.version ≠ v := by
          have := (List.mem_filter.mp hr).2
          rwa [bne_iff_ne] at this
        simp only [List.map_cons, List.map_nil]
        intro hmem
        exact hne (hrx.trans (List.mem_singleton.mp hmem))
  · intro hv
    rw [update_release d l now hv]
    show (List.insertionSort verLe _).filter _ = _
    have hperm := (List.perm_insertionSort verLe
        ((d.versions.filter fun x => x.version != v) ++
          [⟨v, "/" ++ v ++ "/", l, now⟩])).filter (fun e => e.version == v)
    rw [List.filter_append] at hperm
    have h1 : (d.versions.filter fun x => x.version != v).filter
        (fun e => e.version == v) = [] := by
      rw [List.filter_eq_nil_iff]
      intro x hx
      have := (List.mem_filter.mp hx).2
      rw [bne_iff_ne] at this
      simp [this]
    have h2 : List.filter (fun e => e.version == v)
        [(⟨v, "/" ++ v ++ "/", l, now⟩ : VEntry)]
        = [⟨v, "/" ++ v ++ "/", l, now⟩] := by
      simp [List.filter_cons]
    rw [h1, h2, List.nil_append] at hperm
    exact List.perm_singleton.mp hperm

/-- Witness for C2 at a concrete document: re-deploying `v0.1.9` with a
new label leaves exactly one `v0.1.9` record, with the new label. -/
theorem claim2_witness :
    uniqueVersions (update_versions_file
      ⟨defaultVersions.latest, some "v0.1.9",
        [⟨"v0.1.9", "/v0.1.9/", "old label", "T0"⟩]⟩
      "v0.1.9" "new label" "T1").versions
    ∧ (update_versions_file
        ⟨defaultVersions.latest, some "v0.1.9",
          [⟨"v0.1.9", "/v0.1.9/", "old label", "T0"⟩]⟩
        "v0.1.9" "new label" "T1").versions.filter
          (fun e => e.version == "v0.1.9")
      = [⟨"v0.1.9", "/v0.1.9/", "new label", "T1"⟩] :=
  ⟨(claim2_unique_versions _ "v0.1.9" "new label" "T1").1 (by decide),
   (claim2_unique_versions _ "v0.1.9" "new label" "T1").2 (by decide)⟩

/-- Auxiliary: a successful component parse yields one integer per
component. -/
theorem parseComps_length :
    ∀ (ps : List String) (ns : List Int), parseComps ps = some ns →
      ns.length = ps.length := by
  intro ps
  induction ps with
  | nil =>
    intro ns h
    simp [parseComps] at h
    simp [← h]
  | cons p ps ih =>
    intro ns h
    unfold parseComps at h
    rcases h1 : pyInt? p with _ | n <;> rw [h1] at h
    · simp at h
    · rcases h2 : parseComps ps with _ | ms <;> rw [h2] at h
      · simp at h
      · simp only [Option.some.injEq] at h
        rw [← h]
        simp [ih ms h2]

/-- Counterexample to C3: on input `"1.2"` (two components, both
numeric), `parse_version` returns the 2-tuple `(1, 2)` — neither a
3-tuple nor the failure key `(0, 0, 0)`; a missing component is not a
parse failure. -/
theorem claim3_counterexample :
    parse_version "1.2" = [1, 2]
    ∧ (parse_version "1.2").length ≠ 3
    ∧ parse_version "1.2" ≠ [0, 0, 0] := by
  decide

/-- Claim C3 (amended): `parse_version` strips leading `v`s, splits on
`.`, takes up to the first three components and parses each as an
integer; on success it returns the tuple of those integers, whose arity
is `min 3 (number of components)` — not always 3; if one of the taken
components fails integer parsing (non-numeric, empty) it returns
`(0, 0, 0)` instead of raising. -/
theorem claim3_amended (s : String) :
    (∀ ns, parseComps ((pySplitDot (pyLstrip s 'v')).take 3) = some ns →
      parse_version s = ns
        ∧ (parse_version s).length
            = min 3 (pySplitDot (pyLstrip s 'v')).length)
    ∧ (parseComps ((pySplitDot (pyLstrip s 'v')).take 3) = none →
        parse_version s = [0, 0, 0]) := by
  constructor
  · intro ns h
    have hlen := parseComps_length _ _ h
    rw [List.length_take] at hlen
    constructor
    · rw [parse_version, h]
    · rw [parse_version, h, hlen]
  · intro h
    rw [parse_version, h]

/-- Witness for C3 (amended): concrete successful and failing parses. -/
theorem claim3_witness :
    parse_version "v0.1.10" = [0, 1, 10]
    ∧ (parse_version "1.2").length = min 3 2
    ∧ parse_version "banana" = [0, 0, 0] := by
  refine ⟨((claim3_amended "v0.1.10").1 [0, 1, 10] (by decide)).1, ?_, ?_⟩
  · have h := ((claim3_amended "1.2").1 [1, 2] (by decide)).2
    simpa using h
  · exact (claim3_amended "banana").2 (by decide)

/-- Counterexample to C4: the registry holds the unparseable record
`"banana"` (key `(0,0,0)`) and the valid record `"v0.0.0"` (also key
`(0,0,0)`).  After the release update `"v1.0.0"`, the stable descending
sort keeps the tied records in original order, so `"banana"` is placed
*before* the valid `"v0.0.0"` — not after every valid record (in
particular it is not last). -/
theorem claim4_counterexample :
    pyInt? "banana" = none
    ∧ (update_versions_file
        ⟨defaultVersions.latest, some "v0.0.0",
          [⟨"banana", "/banana/", "B", "T0"⟩, ⟨"v0.0.0", "/v0.0.0/", "Z", "T0"⟩]⟩
        "v1.0.0" "L" "T1").versions.map (·.version)
      = ["v1.0.0", "banana", "v0.0.0"]
    ∧ ((update_versions_file
        ⟨defaultVersions.latest, some "v0.0.0",
          [⟨"banana", "/banana/", "B", "T0"⟩, ⟨"v0.0.0", "/v0.0.0/", "Z", "T0"⟩]⟩
        "v1.0.0" "L" "T1").versions.getLast?).map (·.version)
      ≠ some "banana" := by
  decide

/-- Claim C4 (amended): a release-mode update never fails, and when the
registry holds one record `u` whose version parses to the fallback key
`(0, 0, 0)` (e.g. an unparseable string) while every other record and the
new version parse to a strictly greater key, `u` is placed after every
other record, i.e. ends up last. -/
theorem claim4_amended (d : VersionsDoc) (u : VEntry) (v l now : String)
    (hv : v ≠ "latest")
    (hu : u ∈ d.versions)
    (hukey : parse_version u.version = [0, 0, 0])
    (hothers : ∀ r ∈ d.versions, r ≠ u →
      pyTupLt [0, 0, 0] (parse_version r.version) = true)
    (hnew : pyTupLt [0, 0, 0] (parse_version v) = true) :
    (update_versions_file d v l now).versions.getLast? = some u := by
  have huv : u.version ≠ v := by
    intro h
    rw [← h, hukey] at hnew
    exact absurd hnew (by decide)
  rw [update_release d l now hv]
  show (List.insertionSort verLe
      ((d.versions.filter fun x => x.version != v) ++
        [⟨v, "/" ++ v ++ "/", l, now⟩])).getLast? = some u
  set L := (d.versions.filter fun x => x.version != v) ++
    [(⟨v, "/" ++ v ++ "/", l, now⟩ : VEntry)] with hLdef
  have huL : u ∈ L :=
    List.mem_append_left _
      (List.mem_filter.mpr ⟨hu, by rw [bne_iff_ne]; exact huv⟩)
  have hlt : ∀ x ∈ L, x ≠ u →
      pyTupLt [0, 0, 0] (parse_version x.version) = true := by
    intro x hxL hxu
    rcases List.mem_append.mp hxL with hxf | hxe
    · exact hothers x (List.mem_filter.mp hxf).1 hxu
    · rw [List.mem_singleton.mp hxe]
      exact hnew
  refine pairwise_getLast _ u (List.sorted_insertionSort verLe L) ?_ ?_
  · exact (List.perm_insertionSort verLe L).mem_iff.mpr huL
  · intro x hxS hrux
    by_cases hxu : x = u
    · exact hxu
    · exfalso
      have hxL : x ∈ L := (List.perm_insertionSort verLe L).mem_iff.mp hxS
      have hgt := hlt x hxL hxu
      unfold verLe pyTupLe at hrux
      rw [hukey, hgt] at hrux
      simp at hrux

/-- Witness for C4 (amended) at a concrete registry. -/
theorem claim4_witness :
    (update_versions_file
      ⟨defaultVersions.latest, some "v1.2.3",
        [⟨"banana", "/banana/", "B", "T0"⟩, ⟨"v1.2.3", "/v1.2.3/", "A", "T0"⟩]⟩
      "v2.0.0" "L" "T1").versions.getLast?
      = some ⟨"banana", "/banana/", "B", "T0"⟩ :=
  claim4_amended _ ⟨"banana", "/banana/", "B", "T0"⟩ "v2.0.0" "L" "T1"
    (by decide) (by decide) (by decide) (by decide) (by decide)

/-- Claim C5: after every release-mode update the `versions` list is
sorted descending by the parsed semantic-version key (each entry's key is
`>=`, in Python tuple order, that of every later entry); in particular
`v0.1.10` is placed before `v0.1.9` (numeric, not lexicographic,
comparison). -/
theorem claim5_sorted_descending :
    (∀ (d : VersionsDoc) (v l now : String), v ≠ "latest" →
      List.Sorted verLe (update_versions_file d v l now).versions)
    ∧ (update_versions_file
        ⟨defaultVersions.latest, some "v0.1.9",
          [⟨"v0.1.9", "/v0.1.9/", "0.1.9", "T1"⟩]⟩
        "v0.1.10" "0.1.10" "T2").versions.map (·.version)
      = ["v0.1.10", "v0.1.9"] := by
  constructor
  · intro d v l now hv
    rw [update_release d l now hv]
    exact List.sorted_insertionSort verLe _
  · decide

/-- Witness for C5 at a concrete release update. -/
theorem claim5_witness :
    List.Sorted verLe
      (update_versions_file defaultVersions "v0.1.10" "L" "T").versions :=
  claim5_sorted_descending.1 defaultVersions "v0.1.10" "L" "T" (by decide)

/-! ## Claims about `generate_sitemap.py` -/

/-- A file is kept iff its name ends in `.html` and it is not excluded. -/
theorem keepFile_iff (f : String) :
    keepFile f = true ↔ strEndsWith f ".html" = true ∧ f ∉ excluded_files := by
  simp [keepFile]

/-- Claim C6: every regular file of the walked tree whose name ends in
`.html` and is not in the exclusion set `{404.html, print.html}`
contributes exactly one entry to the generated sitemap, and excluded
files never appear: the number of sitemap entries carrying a given URL
equals the number of kept files mapping to it, every kept file's URL is
present, and every entry URL arises from some kept (non-excluded,
`.html`) file. -/
theorem claim6_every_html_once (walk : Walk) (base : String) :
    (∀ url, ((sitemapEntries walk base).map Prod.fst).count url
        = ((walkEntries walk).filter
            (fun e => keepFile e.2
              && (fileUrl (normBase base) e.1 e.2 == url))).length)
    ∧ (∀ p f, (p, f) ∈ walkEntries walk → strEndsWith f ".html" = true →
        f ∉ excluded_files →
        fileUrl (normBase base) p f ∈ (sitemapEntries walk base).map Prod.fst)
    ∧ (∀ url ∈ (sitemapEntries walk base).map Prod.fst,
        ∃ p f, (p, f) ∈ walkEntries walk ∧ strEndsWith f ".html" = true
          ∧ f ∉ excluded_files ∧ url = fileUrl (normBase base) p f) := by
  refine ⟨fun url => count_sitemapEntries walk base url, ?_, ?_⟩
  · intro p f hmem hhtml hexcl
    have hk : keepFile f = true := (keepFile_iff f).mpr ⟨hhtml, hexcl⟩
    have hmemf : (p, f) ∈ (walkEntries walk).filter
        (fun e => keepFile e.2
          && (fileUrl (normBase base) e.1 e.2 == (fileUrl (normBase base) p f))) :=
      List.mem_filter.mpr ⟨hmem, by simp [hk]⟩
    have hpos : 0 < ((walkEntries walk).filter
        (fun e => keepFile e.2
          && (fileUrl (normBase base) e.1 e.2
              == (fileUrl (normBase base) p f)))).length :=
      List.length_pos.mpr (List.ne_nil_of_mem hmemf)
    rw [← count_sitemapEntries walk base] at hpos
    exact List.count_pos_iff.mp hpos
  · intro url hurl
    have hpos : 0 < ((sitemapEntries walk base).map Prod.fst).count url :=
      List.count_pos_iff.mpr hurl
    rw [count_sitemapEntries walk base url] at hpos
    have hne : (walkEntries walk).filter
        (fun e => keepFile e.2 && (fileUrl (normBase base) e.1 e.2 == url))
        ≠ [] := by
      intro hnil
      rw [hnil] at hpos
      simp at hpos
    rcases List.exists_mem_of_ne_nil _ hne with ⟨e, he⟩
    have hef := List.mem_filter.mp he
    have hand := hef.2
    rw [Bool.and_eq_true] at hand
    rcases hand with ⟨hk, hbeq⟩
    rcases (keepFile_iff e.2).mp hk with ⟨hhtml, hexcl⟩
    exact ⟨e.1, e.2, hef.1, hhtml, hexcl, (beq_iff_eq.mp hbeq).symm⟩

/-- Witness for C6 at a concrete tree: `index.html` (kept, present
exactly once), with an excluded `404.html` alongside. -/
theorem claim6_witness :
    fileUrl (normBase "https://x") [] "index.html"
      ∈ (sitemapEntries [([], ["index.html", "404.html"])] "https://x").map
          Prod.fst
    ∧ ((sitemapEntries [([], ["index.html", "404.html"])] "https://x").map
        Prod.fst).count (fileUrl (normBase "https://x") [] "index.html") = 1 := by
  constructor
  · exact (claim6_every_html_once [([], ["index.html", "404.html"])]
      "https://x").2.1 [] "index.html" (by decide) (by decide) (by decide)
  · rw [(claim6_every_html_once [([], ["index.html", "404.html"])]
      "https://x").1]
    decide

/-- Counterexample to C7: a generated sitemap entry whose URL ends in
`core-concepts.html` but also contains the higher-tier fragment
`effect/ch_intro.html`; the first matching rule (the 0.9 tier) wins, so
its priority is `0.9`, not `0.8`. -/
theorem claim7_counterexample :
    sitemapEntries [(["effect"], ["ch_intro.htmlcore-concepts.html"])]
        "https://h.io/"
      = [("https://h.io/effect/ch_intro.htmlcore-concepts.html", "0.9")]
    ∧ strEndsWith "https://h.io/effect/ch_intro.htmlcore-concepts.html"
        "core-concepts.html" = true
    ∧ pagePriority (normBase "https://h.io/")
        "https://h.io/effect/ch_intro.htmlcore-concepts.html" ≠ "0.8" := by
  decide

/-- Claim C7 (amended): the priority is decided by the fixed rule order,
first matching rule winning.  A URL ending in `index.html` always gets
`1.0` (first rule); a URL ending in `core-concepts.html` gets `0.8`
provided no earlier rule (the 1.0 rule and the 0.9 fragment list)
matches; a URL matching no rule at all gets the default `0.5`. -/
theorem claim7_amended (base url : String) :
    (strEndsWith url "index.html" = true → pagePriority base url = "1.0")
    ∧ (rule10 base url = false → rule09 url = false →
        strEndsWith url "core-concepts.html" = true →
        pagePriority base url = "0.8")
    ∧ (rule10 base url = false → rule09 url = false → rule08 url = false →
        rule07 url = false → rule06 url = false →
        pagePriority base url = "0.5") := by
  refine ⟨?_, ?_, ?_⟩
  · intro h
    have h10 : rule10 base url = true := by
      simp [rule10, h]
    simp [pagePriority, h10]
  · intro h10 h09 hend
    have h08 : rule08 url = true := by
      simp only [rule08, tier08fragments, List.any_cons, Bool.or_eq_true]
      exact Or.inl (strEndsWith_imp_contains hend)
    simp [pagePriority, h10, h09, h08]
  · intro h10 h09 h08 h07 h06
    simp [pagePriority, h10, h09, h08, h07, h06]

/-- Witness for C7 (amended): concrete URLs of each amended clause. -/
theorem claim7_witness :
    pagePriority "https://x/" "https://x/core-concepts.html" = "0.8"
    ∧ pagePriority "https://x/" "https://x/index.html" = "1.0"
    ∧ pagePriority "https://x/" "https://x/misc.html" = "0.5" :=
  ⟨(claim7_amended "https://x/" "https://x/core-concepts.html").2.1
      (by decide) (by decide) (by decide),
   (claim7_amended "https://x/" "https://x/index.html").1 (by decide),
   (claim7_amended "https://x/" "https://x/misc.html").2.2 (by decide)
      (by decide) (by decide) (by decide) (by decide)⟩

/-- Counterexample to C8: a base URL already ending in two slashes is
left untouched by the normalisation, so the normalised base ends in two
trailing slashes, not exactly one. -/
theorem claim8_counterexample :
    normBase "https://e//" = "https://e//"
    ∧ trailingSlashes (normBase "https://e//") = 2 := by
  decide

/-- Claim C8 (amended): the normalised base URL always ends with *at
least* one trailing slash: a base already ending in `/` is left unchanged
(so several trailing slashes are preserved), otherwise exactly one `/` is
appended, and only in that case does the result end with exactly one
trailing slash. -/
theorem claim8_amended (base : String) :
    strEndsWith (normBase base) "/" = true
    ∧ (strEndsWith base "/" = true → normBase base = base)
    ∧ (strEndsWith base "/" = false →
        normBase base = base ++ "/"
          ∧ trailingSlashes (normBase base) = 1) := by
  have hslash : ("/" : String).data = ['/'] := rfl
  refine ⟨?_, ?_, ?_⟩
  · by_cases h : strEndsWith base "/" = true
    · rw [normBase, if_pos h]
      exact h
    · rw [normBase, if_neg h]
      exact (strEndsWith_iff _ _).mpr ⟨base.data, by simp [String.data_append, hslash]⟩
  · intro h
    rw [normBase, if_pos h]
  · intro h
    have hnb : normBase base = base ++ "/" := by
      rw [normBase, if_neg (by simp [h])]
    refine ⟨hnb, ?_⟩
    rw [hnb]
    have hrev : (base ++ "/").data.reverse = '/' :: base.data.reverse := by
      simp [String.data_append, hslash]
    rw [trailingSlashes, hrev]
    cases hb : base.data.reverse with
    | nil => simp [List.takeWhile]
    | cons ch t =>
      have hch : (ch == '/') = false := by
        rw [beq_eq_false_iff_ne]
        intro hcheq
        have hdata : base.data = t.reverse ++ ['/'] := by
          have := congrArg List.reverse hb
          simpa [hcheq] using this
        have : strEndsWith base "/" = true :=
          (strEndsWith_iff _ _).mpr ⟨t.reverse, by simp [hdata, hslash]⟩
        simp [this] at h
      simp [List.takeWhile, hch]

/-- Witness for C8 (amended) at concrete base URLs with and without a
trailing slash. -/
theorem claim8_witness :
    normBase "https://x" = "https://x" ++ "/"
    ∧ trailingSlashes (normBase "https://x") = 1
    ∧ normBase "https://x/" = "https://x/" :=
  ⟨((claim8_amended "https://x").2.2 (by decide)).1,
   ((claim8_amended "https://x").2.2 (by decide)).2,
   (claim8_amended "https://x/").2.1 (by decide)⟩

/-- Claim C9: when the input root directory is missing (or not a
directory) the `__main__` driver reports the error and exits with code 1
writing no sitemap; otherwise it writes the generated sitemap and exits
with code 0. -/
theorem claim9_exit_codes (dirOk : Bool) (walk : Walk) (base : String) :
    (dirOk = false →
      sitemapMain dirOk walk base
        = { exitCode := 1, errorReported := true, written := none })
    ∧ (dirOk = true →
        (sitemapMain dirOk walk base).exitCode = 0
          ∧ (sitemapMain dirOk walk base).errorReported = false
          ∧ (sitemapMain dirOk walk base).written
              = some (sitemapEntries walk base)) := by
  constructor
  · intro h
    rw [sitemapMain, h]
    rfl
  · intro h
    rw [sitemapMain, h]
    exact ⟨rfl, rfl, rfl⟩

/-- Witness for C9 at both a missing and a present directory. -/
theorem claim9_witness :
    sitemapMain false [] "b"
      = { exitCode := 1, errorReported := true, written := none }
    ∧ (sitemapMain true [([], ["index.html"])] "https://x").exitCode = 0 :=
  ⟨(claim9_exit_codes false [] "b").1 rfl,
   ((claim9_exit_codes true [([], ["index.html"])] "https://x").2 rfl).1⟩

/-- Claim C10: every URL placed in the sitemap is the normalised base
followed by a non-empty root-relative path ending in `.html`, hence
strictly longer (in characters) than both the supplied and the normalised
base URL; consequently the priority-1.0 comparison of an entry URL with
the normalised base stripped of its trailing slashes never holds. -/
theorem claim10_urls_extend_base (walk : Walk) (base url : String)
    (h : url ∈ (sitemapEntries walk base).map Prod.fst) :
    (∃ rel, url = normBase base ++ rel ∧ rel ≠ ""
      ∧ strEndsWith rel ".html" = true)
    ∧ base.data.length < url.data.length
    ∧ (normBase base).data.length < url.data.length
    ∧ url ≠ pyRstrip (normBase base) '/' := by
  rw [sitemapEntries_map_fst] at h
  have h2 : url ∈ collectUrls (normBase base) walk :=
    (List.perm_insertionSort urlLe _).mem_iff.mp h
  unfold collectUrls at h2
  rcases List.mem_flatMap.mp h2 with ⟨rf, hrf, hin⟩
  rcases List.mem_filterMap.mp hin with ⟨f, hf, hif⟩
  have hk : keepFile f = true := by
    by_cases hk : keepFile f = true
    · exact hk
    · rw [if_neg hk] at hif
      exact absurd hif (by simp)
  rw [if_pos hk] at hif
  have hurl : url = normBase base ++ joinSlash (rf.1 ++ [f]) :=
    (Option.some.injEq _ _ ▸ hif).symm
  set rel := joinSlash (rf.1 ++ [f]) with hreldef
  have hhtml : strEndsWith f ".html" = true := ((keepFile_iff f).mp hk).1
  rcases (strEndsWith_iff f ".html").mp hhtml with ⟨pre, hpre⟩
  have h5 : (".html" : String).data.length = 5 := rfl
  have hflen : f.data.length = pre.length + 5 := by
    rw [hpre, List.length_append, h5]
  rcases joinSlash_last f rf.1 with ⟨t, ht⟩
  have hrelend : strEndsWith rel ".html" = true := by
    refine (strEndsWith_iff _ _).mpr ⟨t ++ pre, ?_⟩
    rw [ht, hpre, List.append_assoc]
  have hrellen : 5 ≤ rel.data.length := by
    rw [ht, List.length_append]
    omega
  have hrelne : rel ≠ "" := by
    intro hr
    have : rel.data = [] := by rw [hr]
    rw [this] at hrellen
    simp at hrellen
  have hurldata : url.data = (normBase base).data ++ rel.data := by
    rw [hurl, String.data_append]
  have hurllen : url.data.length
      = (normBase base).data.length + rel.data.length := by
    rw [hurldata, List.length_append]
  have hbaselen : base.data.length ≤ (normBase base).data.length := by
    rw [normBase]
    by_cases hsl : strEndsWith base "/" = true
    · rw [if_pos hsl]
    · rw [if_neg hsl, String.data_append, List.length_append]
      omega
  refine ⟨⟨rel, hurl, hrelne, hrelend⟩, by omega, by omega, ?_⟩
  intro heq
  have hle := pyRstrip_length_le (normBase base) '/'
  have : url.data.length = (pyRstrip (normBase base) '/').data.length := by
    rw [heq]
  omega

/-- Witness for C10 at a concrete walk: the single generated URL strictly
extends the base and differs from the rstripped base. -/
theorem claim10_witness :
    "https://x/index.html"
      ∈ (sitemapEntries [([], ["index.html"])] "https://x").map Prod.fst
    ∧ "https://x/index.html" ≠ pyRstrip (normBase "https://x") '/' := by
  refine ⟨by decide, ?_⟩
  exact (claim10_urls_extend_base [([], ["index.html"])] "https://x"
    "https://x/index.html" (by decide)).2.2.2

end DocsPipeline
